import Mathlib

/-!
Shallow embedding of the chord-inference core of
`scripts/comprehensive_chord_extractor.py` (class `ChordExtractor`):
the chord-template table, `pitches_to_chord_name`, and the windowing
loop of `midi_to_chords`.  Times are exact rationals; pitches are
naturals; the Python `frozenset` keys become `Finset ℕ`.
-/

namespace ChordExtractor

/-- A timed note event: `pretty_midi` note with `start`, `end`, `pitch`. -/
structure Note where
  start : ℚ
  «end» : ℚ
  pitch : ℕ
deriving DecidableEq

/-- One MIDI instrument: a drum flag and its note list. -/
structure Instrument where
  is_drum : Bool
  notes : List Note
deriving DecidableEq

/-- `self.note_names`: pitch-class → label table. -/
def note_names : List String :=
  "C" :: "C#" :: "D" :: "D#" :: "E" :: "F" ::
    "F#" :: "G" :: "G#" :: "A" :: "A#" :: "B" :: []

/-- `self.chord_patterns`: the frozenset → name table, in source order
(major triads, minor triads, major 7ths, dominant 7ths). -/
def chord_patterns : List (Finset ℕ × String) :=
  [ ({0, 4, 7}, "C"), ({1, 5, 8}, "C#"), ({2, 6, 9}, "D"),
    ({3, 7, 10}, "D#"), ({4, 8, 11}, "E"), ({5, 9, 0}, "F"),
    ({6, 10, 1}, "F#"), ({7, 11, 2}, "G"), ({8, 0, 3}, "G#"),
    ({9, 1, 4}, "A"), ({10, 2, 5}, "A#"), ({11, 3, 6}, "B"),
    ({0, 3, 7}, "Cm"), ({1, 4, 8}, "C#m"), ({2, 5, 9}, "Dm"),
    ({3, 6, 10}, "D#m"), ({4, 7, 11}, "Em"), ({5, 8, 0}, "Fm"),
    ({6, 9, 1}, "F#m"), ({7, 10, 2}, "Gm"), ({8, 11, 3}, "G#m"),
    ({9, 0, 4}, "Am"), ({10, 1, 5}, "A#m"), ({11, 2, 6}, "Bm"),
    ({0, 4, 7, 11}, "Cmaj7"), ({1, 5, 8, 0}, "C#maj7"), ({2, 6, 9, 1}, "Dmaj7"),
    ({3, 7, 10, 2}, "D#maj7"), ({4, 8, 11, 3}, "Emaj7"), ({5, 9, 0, 4}, "Fmaj7"),
    ({6, 10, 1, 5}, "F#maj7"), ({7, 11, 2, 6}, "Gmaj7"), ({8, 0, 3, 7}, "G#maj7"),
    ({9, 1, 4, 8}, "Amaj7"), ({10, 2, 5, 9}, "A#maj7"), ({11, 3, 6, 10}, "Bmaj7"),
    ({0, 4, 7, 10}, "C7"), ({1, 5, 8, 11}, "C#7"), ({2, 6, 9, 0}, "D7"),
    ({3, 7, 10, 1}, "D#7"), ({4, 8, 11, 2}, "E7"), ({5, 9, 0, 3}, "F7"),
    ({6, 10, 1, 4}, "F#7"), ({7, 11, 2, 5}, "G7"), ({8, 0, 3, 6}, "G#7"),
    ({9, 1, 4, 7}, "A7"), ({10, 2, 5, 8}, "A#7"), ({11, 3, 6, 9}, "B7") ]

/-- Dictionary lookup `self.chord_patterns[pitch_set]` (first match wins,
as dict insertion order would resolve duplicate keys). -/
def patternLookup (s : Finset ℕ) : Option String :=
  (chord_patterns.find? (fun p => decide (p.1 = s))).map Prod.snd

/-- `pitches_to_chord_name`: try the 4-prefix set, then the 3-prefix set,
against the table; fall back to the root-note name of the first pitch. -/
def pitches_to_chord_name (pitches : List ℕ) : Option String :=
  if pitches.isEmpty then none
  else
    match (if 4 ≤ pitches.length then patternLookup (pitches.take 4).toFinset else none) with
    | some name => some name
    | none =>
      match (if 3 ≤ pitches.length then patternLookup (pitches.take 3).toFinset else none) with
      | some name => some name
      | none => some (note_names.getD (pitches.headD 0) "")

end ChordExtractor

namespace ChordExtractor

/-- Notes of all non-drum instruments, in instrument then note order
(`all_notes.extend(instrument.notes)`). -/
def gatherNotes (instruments : List Instrument) : List Note :=
  (instruments.filter (fun i => !i.is_drum)).flatMap Instrument.notes

/-- Stable insertion of a note into a list ascending by `start`
(models the stability of Python `list.sort(key=lambda x: x.start)`). -/
def insertByStart (n : Note) : List Note → List Note
  | [] => [n]
  | m :: ms => if n.start ≤ m.start then n :: m :: ms else m :: insertByStart n ms

/-- Stable sort by `start`: `all_notes.sort(key=lambda x: x.start)`. -/
def sortByStart : List Note → List Note
  | [] => []
  | n :: ns => insertByStart n (sortByStart ns)

/-- `max(note.end for note in all_notes)` (0 on the empty list, which the
source never reaches). -/
def maxEnd : List Note → ℚ
  | [] => 0
  | n :: ns => ns.foldl (fun a m => max a m.«end») n.«end»

/-- Truncation toward zero, the semantics of Python `int()` on a float/ratio. -/
def ratTrunc (q : ℚ) : ℤ := if 0 ≤ q then ⌊q⌋ else ⌈q⌉

/-- `num_windows = max(8, min(16, int(song_length / 2)))`. -/
def num_windows (T : ℚ) : ℕ := (max 8 (min 16 (ratTrunc (T / 2)))).toNat

/-- The pitch classes collected for the window starting at `t` of size `S`:
notes active at instant `t` or starting inside `[t, t + S)`. -/
def windowNotes (all_notes : List Note) (t S : ℚ) : List ℕ :=
  (all_notes.filter (fun n =>
      decide ((n.start ≤ t ∧ t < n.«end») ∨ (t ≤ n.start ∧ n.start < t + S)))).map
    (fun n => n.pitch % 12)

/-- Distinct values in first-occurrence order, skipping already-seen ones:
the key order of a Python `Counter` built by insertion. -/
def insertionOrderGo (seen : List ℕ) : List ℕ → List ℕ
  | [] => []
  | x :: xs => if x ∈ seen then insertionOrderGo seen xs
               else x :: insertionOrderGo (x :: seen) xs

/-- Distinct values of a list in first-occurrence order. -/
def insertionOrder (l : List ℕ) : List ℕ := insertionOrderGo [] l

/-- Stable insertion into a list descending by `count`: the inserted element
comes before later-encountered elements of equal count. -/
def insertByCountDesc (count : ℕ → ℕ) (x : ℕ) : List ℕ → List ℕ
  | [] => [x]
  | y :: ys => if count y ≤ count x then x :: y :: ys else y :: insertByCountDesc count x ys

/-- Stable sort descending by `count`. -/
def sortByCountDesc (count : ℕ → ℕ) : List ℕ → List ℕ
  | [] => []
  | x :: xs => insertByCountDesc count x (sortByCountDesc count xs)

/-- `[pitch for pitch, count in Counter(window_notes).most_common(6)]`:
distinct pitch classes ranked by frequency (stable, ties in
first-occurrence order), top 6. -/
def most_common6 (window_notes : List ℕ) : List ℕ :=
  (sortByCountDesc (fun x => window_notes.count x) (insertionOrder window_notes)).take 6

/-- The body of one `while` iteration: collect the window's notes, and when
at least 3 pitch-class instances were found, resolve a chord name and
append it unless it repeats the immediately preceding chord. -/
def processWindow (all_notes : List Note) (S t : ℚ) (chords : List String) : List String :=
  let window_notes := windowNotes all_notes t S
  if 3 ≤ window_notes.length then
    let chord_pitches := most_common6 window_notes
    if chord_pitches.isEmpty then chords
    else
      match pitches_to_chord_name chord_pitches with
      | none => chords
      | some chord_name =>
        if chord_name ≠ "" ∧ (chords.isEmpty ∨ chords.getLast? ≠ some chord_name) then
          chords ++ [chord_name]
        else chords
  else chords

/-- The control of `while current_time < song_length`, fuel-bounded:
the list of window start times visited, stepping by `S`. -/
def loopTimes (T S : ℚ) : ℕ → ℚ → List ℚ
  | 0, _ => []
  | fuel + 1, t => if t < T then t :: loopTimes T S fuel (t + S) else []

/-- Processing every visited window in order, threading `chords`. -/
def runWindows (all_notes : List Note) (S : ℚ) (times : List ℚ)
    (chords : List String) : List String :=
  times.foldl (fun cs t => processWindow all_notes S t cs) chords

/-- The final pass: keep chords not seen before, stop once the kept list
has reached `maxChords` elements (length test runs after the append). -/
def uniqueLoop (maxChords : ℕ) : List String → List String → List String
  | acc, [] => acc
  | acc, c :: cs =>
    let acc' := if c ∈ acc then acc else acc ++ [c]
    if maxChords ≤ acc'.length then acc' else uniqueLoop maxChords acc' cs

/-- Sorted note list of a recording. -/
def all_notes_of (instruments : List Instrument) : List Note :=
  sortByStart (gatherNotes instruments)

/-- `song_length` of a recording. -/
def T_of (instruments : List Instrument) : ℚ := maxEnd (all_notes_of instruments)

/-- `num_windows` of a recording. -/
def W_of (instruments : List Instrument) : ℕ := num_windows (T_of instruments)

/-- `window_size` of a recording. -/
def S_of (instruments : List Instrument) : ℚ := T_of instruments / (W_of instruments : ℚ)

/-- The window start times the `while` loop visits (17 fuel bounds the at
most 16 windows). -/
def starts_of (instruments : List Instrument) : List ℚ :=
  loopTimes (T_of instruments) (S_of instruments) 17 0

/-- The chord-name sequence of `midi_to_chords`, with the truncation bound
`8` exposed as the parameter `maxChords` (the spec's `infer`): empty when no
non-drum notes survive, otherwise the windowed chord list passed through the
unique-up-to-`maxChords` pass. -/
def infer (instruments : List Instrument) (maxChords : ℕ) : List String :=
  if (gatherNotes instruments).isEmpty then []
  else
    uniqueLoop maxChords []
      (runWindows (all_notes_of instruments) (S_of instruments) (starts_of instruments) [])

/-- `midi_to_chords` proper: the sequence joined with `" - "`, `none` when
empty. -/
def midi_to_chords (instruments : List Instrument) : Option String :=
  let unique_chords := infer instruments 8
  if unique_chords.isEmpty then none else some (String.intercalate " - " unique_chords)

/-- The resolution rule exactly as the spec words it (for comparison with
`pitches_to_chord_name`): the template name for the set of the first 4
elements if present, else for the set of the first 3 elements, else the
root-note label of the head. -/
def resolveSpec (P : List ℕ) : String :=
  match patternLookup (P.take 4).toFinset with
  | some s => s
  | none =>
    match patternLookup (P.take 3).toFinset with
    | some s => s
    | none => note_names.getD (P.headD 0) ""

/-- A one-second note of pitch `p` starting at `s`. -/
def secNote (s : ℚ) (p : ℕ) : Note := ⟨s, s + 1, p⟩

/-- Example recording: C major {0,4,7} on even seconds and G major {7,11,2}
on odd seconds, one second each, for 8 seconds. -/
def exAlt : List Instrument :=
  [⟨false, (List.range 8).flatMap (fun i =>
      if i % 2 = 0 then [secNote i 60, secNote i 64, secNote i 67]
      else [secNote i 67, secNote i 71, secNote i 62])⟩]

/-- Example recording: a sustained C-major triad (pitches 60, 64, 67) from
0 to 4 seconds. -/
def exC : List Instrument := [⟨false, [⟨0, 4, 60⟩, ⟨0, 4, 64⟩, ⟨0, 4, 67⟩]⟩]

/-- Example recording: a single 8-second note, so no window ever reaches 3
pitch-class instances. -/
def exOne : List Instrument := [⟨false, [⟨0, 8, 60⟩]⟩]

/-- Example recording: a drum-only instrument, filtered out entirely. -/
def exDrum : List Instrument := [⟨true, [⟨0, 4, 60⟩, ⟨0, 4, 64⟩, ⟨0, 4, 67⟩]⟩]

end ChordExtractor

namespace ChordExtractor

lemma patternLookup_card {s : Finset ℕ} {x : String} (h : patternLookup s = some x) :
    3 ≤ s.card := by
  unfold patternLookup at h
  cases hfind : chord_patterns.find? (fun p => decide (p.1 = s)) with
  | none => rw [hfind] at h; simp at h
  | some p =>
    have hmem : p ∈ chord_patterns := List.mem_of_find?_eq_some hfind
    have hkey : p.1 = s := by
      have := List.find?_some hfind
      simpa using this
    have hall : ∀ q ∈ chord_patterns, 3 ≤ q.1.card := by decide
    exact hkey ▸ hall p hmem

lemma patternLookup_short {l : List ℕ} (h : l.length ≤ 2) :
    patternLookup l.toFinset = none := by
  cases hres : patternLookup l.toFinset with
  | none => rfl
  | some x =>
    have h3 := patternLookup_card hres
    have hle : l.toFinset.card ≤ l.length := l.toFinset_card_le
    omega

/-- Claim C3: `pitches_to_chord_name` never fails on a non-empty pitch list
with entries below 12: it returns exactly the string described by the spec's
resolution rule (4-prefix template, else 3-prefix template, else root label),
and in particular `resolve([5])` is `"F"`. -/
theorem c3_resolve_total :
    (∀ P : List ℕ, P ≠ [] → (∀ p ∈ P, p < 12) →
      pitches_to_chord_name P = some (resolveSpec P)) ∧
    pitches_to_chord_name [5] = some "F" := by
  constructor
  · intro P hne _
    have hEmpty : P.isEmpty = false := by
      cases P with
      | nil => exact absurd rfl hne
      | cons a l => rfl
    by_cases h4 : 4 ≤ P.length
    · have h3 : 3 ≤ P.length := by omega
      unfold pitches_to_chord_name resolveSpec
      rw [if_neg (by simp [hEmpty]), if_pos h4, if_pos h3]
      cases patternLookup (P.take 4).toFinset <;>
        cases patternLookup (P.take 3).toFinset <;> rfl
    · by_cases h3 : 3 ≤ P.length
      · have ht4 : P.take 4 = P := List.take_of_length_le (by omega)
        have ht3 : P.take 3 = P := List.take_of_length_le (by omega)
        unfold pitches_to_chord_name resolveSpec
        rw [if_neg (by simp [hEmpty]), if_neg h4, if_pos h3, ht4, ht3]
        cases patternLookup P.toFinset <;> rfl
      · have ht4 : P.take 4 = P := List.take_of_length_le (by omega)
        have ht3 : P.take 3 = P := List.take_of_length_le (by omega)
        have hnone : patternLookup P.toFinset = none :=
          patternLookup_short (by omega)
        unfold pitches_to_chord_name resolveSpec
        rw [if_neg (by simp [hEmpty]), if_neg h4, if_neg h3, ht4, ht3, hnone]
  · decide

/-- Witness for C3 at the concrete inputs `[9,0,4]` (A minor) and `[5]`. -/
theorem c3_witness :
    pitches_to_chord_name [9, 0, 4] = some (resolveSpec [9, 0, 4]) ∧
    pitches_to_chord_name [5] = some "F" :=
  ⟨c3_resolve_total.1 [9, 0, 4] (by decide) (by decide), c3_resolve_total.2⟩

/-- Claim C2: whenever filtering out percussive notes leaves zero notes
(in particular on an empty input), `infer` returns the empty sequence. -/
theorem c2_empty_input (instruments : List Instrument) (k : ℕ)
    (h : gatherNotes instruments = []) : infer instruments k = [] := by
  simp [infer, h]

/-- Witness for C2: a drum-only recording. -/
theorem c2_witness : gatherNotes exDrum = [] ∧ infer exDrum 8 = [] :=
  ⟨by decide, c2_empty_input exDrum 8 (by decide)⟩

/-- Claim C5: a note contributes to a window's collection exactly when its
interval covers the window start or its onset falls inside the window, and
each qualifying note contributes exactly one pitch-class instance. -/
lemma windowNotes_cons (n : Note) (ns : List Note) (t S : ℚ) :
    windowNotes (n :: ns) t S =
      (if (n.start ≤ t ∧ t < n.«end») ∨ (t ≤ n.start ∧ n.start < t + S)
        then [n.pitch % 12] else []) ++ windowNotes ns t S := by
  unfold windowNotes
  rw [List.filter_cons]
  by_cases hcond : (n.start ≤ t ∧ t < n.«end») ∨ (t ≤ n.start ∧ n.start < t + S)
  · rw [if_pos (by simp [hcond]), if_pos hcond, List.map_cons, List.singleton_append]
  · rw [if_neg (by simp [hcond]), if_neg hcond, List.nil_append]

theorem c5_window_collection (l : List Note) (t S : ℚ) :
    windowNotes l t S = l.flatMap (fun n =>
      if (n.start ≤ t ∧ t < n.«end») ∨ (t ≤ n.start ∧ n.start < t + S)
      then [n.pitch % 12] else []) := by
  induction l with
  | nil => rfl
  | cons n ns ih => rw [windowNotes_cons, ih, List.flatMap_cons]

lemma processWindow_small (notes : List Note) (S t : ℚ) (cs : List String)
    (h : (windowNotes notes t S).length < 3) : processWindow notes S t cs = cs := by
  simp only [processWindow]
  rw [if_neg (by omega)]

lemma runWindows_skip (notes : List Note) (S : ℚ) :
    ∀ (times : List ℚ) (cs : List String),
      (∀ t ∈ times, (windowNotes notes t S).length < 3) →
      runWindows notes S times cs = cs := by
  intro times
  induction times with
  | nil => intro cs _; rfl
  | cons t ts ih =>
    intro cs h
    have hstep : runWindows notes S (t :: ts) cs
        = runWindows notes S ts (processWindow notes S t cs) := rfl
    rw [hstep, processWindow_small notes S t cs (h t (List.mem_cons_self t ts)),
      ih cs (fun u hu => h u (List.mem_cons_of_mem t hu))]

/-- Claim C6: when no window ever collects 3 or more pitch-class instances,
no chord is emitted and `infer` returns the empty sequence. -/
theorem c6_sparse_empty (instruments : List Instrument) (k : ℕ)
    (h : ∀ t ∈ starts_of instruments,
      (windowNotes (all_notes_of instruments) t (S_of instruments)).length < 3) :
    infer instruments k = [] := by
  unfold infer
  by_cases hE : (gatherNotes instruments).isEmpty
  · rw [if_pos hE]
  · rw [if_neg hE, runWindows_skip _ _ _ _ h]
    rfl

unseal Rat.add Rat.mul Rat.inv in
set_option maxRecDepth 20000 in
/-- Witness for C6: a single sustained note never yields 3 instances. -/
theorem c6_witness :
    (∀ t ∈ starts_of exOne,
      (windowNotes (all_notes_of exOne) t (S_of exOne)).length < 3) ∧
    infer exOne 8 = [] :=
  ⟨by decide, c6_sparse_empty exOne 8 (by decide)⟩

lemma uniqueLoop_length_le (k : ℕ) :
    ∀ (cs acc : List String), acc.length < k → (uniqueLoop k acc cs).length ≤ k := by
  intro cs
  induction cs with
  | nil => intro acc h; exact le_of_lt h
  | cons c cs ih =>
    intro acc h
    simp only [uniqueLoop]
    have hlen : (if c ∈ acc then acc else acc ++ [c]).length ≤ acc.length + 1 := by
      by_cases hmem : c ∈ acc <;> simp [hmem]
    by_cases hk : k ≤ (if c ∈ acc then acc else acc ++ [c]).length
    · rw [if_pos hk]; omega
    · rw [if_neg hk]; exact ih _ (by omega)

lemma uniqueLoop_nodup (k : ℕ) :
    ∀ (cs acc : List String), acc.Nodup → (uniqueLoop k acc cs).Nodup := by
  intro cs
  induction cs with
  | nil => intro acc h; exact h
  | cons c cs ih =>
    intro acc h
    simp only [uniqueLoop]
    have h' : (if c ∈ acc then acc else acc ++ [c]).Nodup := by
      by_cases hmem : c ∈ acc
      · simpa [hmem] using h
      · simp [hmem, List.nodup_append, h]
    by_cases hk : k ≤ (if c ∈ acc then acc else acc ++ [c]).length
    · rw [if_pos hk]; exact h'
    · rw [if_neg hk]; exact ih _ h'

lemma infer_nodup (instruments : List Instrument) (k : ℕ) : (infer instruments k).Nodup := by
  unfold infer
  by_cases hE : (gatherNotes instruments).isEmpty
  · rw [if_pos hE]; exact List.nodup_nil
  · rw [if_neg hE]; exact uniqueLoop_nodup k _ [] List.nodup_nil

/-- Claim C10: the emitted sequence is globally deduplicated — all elements
of `infer`'s result are pairwise distinct. -/
theorem c10_globally_distinct (instruments : List Instrument) (k : ℕ) :
    (infer instruments k).Pairwise (fun a b => a ≠ b) :=
  infer_nodup instruments k

/-- Claim C8: the emitted sequence never contains two consecutive equal
elements. -/
theorem c8_no_adjacent_repeats (instruments : List Instrument) (k : ℕ) :
    (infer instruments k).Chain' (fun a b => a ≠ b) :=
  List.Pairwise.chain' (infer_nodup instruments k)

unseal Rat.add Rat.mul Rat.inv in
set_option maxRecDepth 20000 in
/-- Counterexample to claim C7 as stated: with `maxChords = 0` the sustained
C-major recording still yields one chord, because the length test runs only
after the append. -/
theorem c7_counterexample : ¬ ((infer exC 0).length ≤ 0) := by decide

/-- Claim C7 amended: for every `maxChords = k ≥ 1` the result has length at
most `k` (the claim fails only at `k = 0`, where one element can slip in). -/
theorem c7_length_le (instruments : List Instrument) (k : ℕ) (hk : 1 ≤ k) :
    (infer instruments k).length ≤ k := by
  unfold infer
  by_cases hE : (gatherNotes instruments).isEmpty
  · rw [if_pos hE]; simp
  · rw [if_neg hE]; exact uniqueLoop_length_le k _ [] (by simpa using hk)

/-- Witness for C7 (amended) at the default `maxChords = 8`. -/
theorem c7_witness : 1 ≤ 8 ∧ (infer exC 8).length ≤ 8 :=
  ⟨by decide, c7_length_le exC 8 (by decide)⟩

unseal Rat.add Rat.mul Rat.inv in
set_option maxRecDepth 40000 in
/-- Counterexample to claim C1 as stated: the alternating C/G recording does
not return all 8 alternations, because the final pass deduplicates against
every earlier chord, not only the immediate predecessor. -/
theorem c1_counterexample :
    infer exAlt 8 ≠ ["C", "G", "C", "G", "C", "G", "C", "G"] := by decide

unseal Rat.add Rat.mul Rat.inv in
set_option maxRecDepth 40000 in
/-- Claim C1 amended: on the alternating C/G recording (W = 8 one-second
windows) `infer` returns `["C", "G"]` — each window resolves the alternating
chord and the adjacent-dedup pass keeps all 8, but the final unique pass
collapses every repeat of an earlier chord. -/
theorem c1_alternation : infer exAlt 8 = ["C", "G"] := by decide

lemma insertByStart_perm (n : Note) (l : List Note) : List.Perm (insertByStart n l) (n :: l) := by
  induction l with
  | nil => exact List.Perm.refl _
  | cons m ms ih =>
    by_cases h : n.start ≤ m.start
    · simp [insertByStart, h]
    · simp only [insertByStart, if_neg h]
      exact (List.Perm.cons m ih).trans (List.Perm.swap n m ms)

lemma sortByStart_perm (l : List Note) : List.Perm (sortByStart l) l := by
  induction l with
  | nil => exact List.Perm.refl _
  | cons n ns ih => exact (insertByStart_perm n (sortByStart ns)).trans (List.Perm.cons n ih)

lemma le_foldl_max (ns : List Note) :
    ∀ a : ℚ, a ≤ ns.foldl (fun b m => max b m.«end») a := by
  induction ns with
  | nil => intro a; exact le_refl a
  | cons m ms ih =>
    intro a
    exact le_trans (le_max_left a m.«end») (ih (max a m.«end»))

lemma mem_le_foldl_max (n : Note) :
    ∀ (ns : List Note) (a : ℚ), n ∈ ns →
      n.«end» ≤ ns.foldl (fun b m => max b m.«end») a := by
  intro ns
  induction ns with
  | nil => intro a h; exact absurd h (List.not_mem_nil n)
  | cons m ms ih =>
    intro a h
    rcases List.mem_cons.mp h with heq | hmem
    · subst heq
      exact le_trans (le_max_right a n.«end») (le_foldl_max ms _)
    · exact ih _ hmem

lemma mem_le_maxEnd {n : Note} {l : List Note} (h : n ∈ l) : n.«end» ≤ maxEnd l := by
  cases l with
  | nil => exact absurd h (List.not_mem_nil n)
  | cons m ms =>
    rcases List.mem_cons.mp h with heq | hmem
    · subst heq
      exact le_foldl_max ms n.«end»
    · exact mem_le_foldl_max n ms m.«end» hmem

lemma T_pos (instruments : List Instrument)
    (hne : gatherNotes instruments ≠ [])
    (hwf : ∀ n ∈ gatherNotes instruments, 0 ≤ n.start ∧ n.start < n.«end») :
    0 < T_of instruments := by
  obtain ⟨n, hn⟩ : ∃ n, n ∈ gatherNotes instruments :=
    List.exists_mem_of_ne_nil _ hne
  have hmem : n ∈ all_notes_of instruments := (sortByStart_perm _).mem_iff.mpr hn
  have h1 : 0 < n.«end» := lt_of_le_of_lt (hwf n hn).1 (hwf n hn).2
  exact lt_of_lt_of_le h1 (mem_le_maxEnd hmem)

lemma num_windows_bounds (T : ℚ) : 8 ≤ num_windows T ∧ num_windows T ≤ 16 := by
  unfold num_windows
  have h8 : (8 : ℤ) ≤ max 8 (min 16 (ratTrunc (T / 2))) := le_max_left _ _
  have h16 : max 8 (min 16 (ratTrunc (T / 2))) ≤ 16 :=
    max_le (by norm_num) (min_le_left _ _)
  omega

lemma num_windows_int (T : ℚ) (hT : 0 < T) :
    (num_windows T : ℤ) = max 8 (min 16 ⌊T / 2⌋) := by
  unfold num_windows
  have htr : ratTrunc (T / 2) = ⌊T / 2⌋ := by
    unfold ratTrunc
    rw [if_pos (div_nonneg hT.le (by norm_num))]
  rw [htr]
  have h8 : (8 : ℤ) ≤ max 8 (min 16 ⌊T / 2⌋) := le_max_left _ _
  omega

lemma loopTimes_run (T S : ℚ) (W : ℕ) (hS : 0 < S) (hT : T = (W : ℚ) * S) :
    ∀ (fuel j : ℕ), W - j ≤ fuel →
      loopTimes T S fuel ((j : ℚ) * S) =
        (List.range (W - j)).map (fun i => ((j + i : ℕ) : ℚ) * S) := by
  intro fuel
  induction fuel with
  | zero =>
    intro j hj
    rw [Nat.le_zero.mp hj]
    rfl
  | succ fuel ih =>
    intro j hj
    simp only [loopTimes]
    by_cases hjW : j < W
    · have hcond : (j : ℚ) * S < T := by
        rw [hT]
        exact mul_lt_mul_of_pos_right (by exact_mod_cast hjW) hS
      rw [if_pos hcond]
      have hstep : (j : ℚ) * S + S = ((j + 1 : ℕ) : ℚ) * S := by push_cast; ring
      rw [hstep, ih (j + 1) (by omega)]
      have hWj : W - j = (W - (j + 1)) + 1 := by omega
      rw [hWj, List.range_succ_eq_map, List.map_cons, List.map_map]
      refine List.cons_eq_cons.mpr ⟨by norm_num, ?_⟩
      refine List.map_congr_left (fun i _ => ?_)
      simp only [Function.comp_apply]
      push_cast
      ring
    · have hcond : ¬ ((j : ℚ) * S < T) := by
        rw [hT]
        exact not_lt.mpr
          (mul_le_mul_of_nonneg_right (by exact_mod_cast Nat.le_of_not_lt hjW) hS.le)
      rw [if_neg hcond, (by omega : W - j = 0)]
      rfl

/-- Claim C4: on well-formed non-empty input, the window count is
`clamp(floor(T / 2), 8, 16)` and the `while` loop visits exactly the `W`
start times `0·S, 1·S, …, (W-1)·S` with `S = T / W` (exact rationals). -/
theorem c4_windowing (instruments : List Instrument)
    (hne : gatherNotes instruments ≠ [])
    (hwf : ∀ n ∈ gatherNotes instruments, 0 ≤ n.start ∧ n.start < n.«end») :
    (W_of instruments : ℤ) = max 8 (min 16 ⌊T_of instruments / 2⌋) ∧
    starts_of instruments =
      (List.range (W_of instruments)).map
        (fun i : ℕ => (i : ℚ) * S_of instruments) := by
  have hT : 0 < T_of instruments := T_pos instruments hne hwf
  have hWb := num_windows_bounds (T_of instruments)
  have hW8 : 8 ≤ W_of instruments := hWb.1
  have hW16 : W_of instruments ≤ 16 := hWb.2
  have hS : 0 < S_of instruments :=
    div_pos hT (by exact_mod_cast (by omega : 0 < W_of instruments))
  have hTW : T_of instruments = (W_of instruments : ℚ) * S_of instruments := by
    unfold S_of
    rw [mul_div_cancel₀]
    exact_mod_cast (by omega : W_of instruments ≠ 0)
  refine ⟨num_windows_int _ hT, ?_⟩
  have h := loopTimes_run (T_of instruments) (S_of instruments) (W_of instruments)
    hS hTW 17 0 (by omega)
  unfold starts_of
  calc loopTimes (T_of instruments) (S_of instruments) 17 0
      = loopTimes (T_of instruments) (S_of instruments) 17 (((0 : ℕ) : ℚ) * S_of instruments) := by
        norm_num
    _ = (List.range (W_of instruments - 0)).map
          (fun i => ((0 + i : ℕ) : ℚ) * S_of instruments) := h
    _ = (List.range (W_of instruments)).map
          (fun i : ℕ => (i : ℚ) * S_of instruments) := by
        rw [Nat.sub_zero]
        exact List.map_congr_left (fun i _ => by norm_num)

unseal Rat.add Rat.mul Rat.inv in
set_option maxRecDepth 40000 in
/-- Witness for C4 on the alternating C/G recording (`T = 8`, `W = 8`,
`S = 1`). -/
theorem c4_witness :
    (W_of exAlt : ℤ) = max 8 (min 16 ⌊T_of exAlt / 2⌋) ∧
    starts_of exAlt =
      (List.range (W_of exAlt)).map (fun i : ℕ => (i : ℚ) * S_of exAlt) :=
  c4_windowing exAlt (by decide) (by decide)

/-- Counterexample to claim C9 as stated: the template table does not have
96 entries — it has 12 major + 12 minor + 12 major-7th + 12 dominant-7th
keys, 48 in total. -/
theorem c9_counterexample : ¬ (chord_patterns.length = 96) := by decide

/-- Claim C9 amended: the template table has 48 pairwise-distinct keys
(12 roots × 4 chord qualities, not 96) and maps, for every root `r`, the
major triad to the root name, the minor triad to root + "m", the major-7th
to root + "maj7" and the dominant-7th to root + "7", with the root names
0=C … 11=B. -/
theorem c9_template_table :
    chord_patterns.length = 48 ∧
    (chord_patterns.map Prod.fst).Nodup ∧
    note_names = "C" :: "C#" :: "D" :: "D#" :: "E" :: "F" ::
      "F#" :: "G" :: "G#" :: "A" :: "A#" :: "B" :: [] ∧
    (∀ r : Fin 12,
      patternLookup {r.val, (r.val + 4) % 12, (r.val + 7) % 12} =
        some (note_names.getD r.val "") ∧
      patternLookup {r.val, (r.val + 3) % 12, (r.val + 7) % 12} =
        some (note_names.getD r.val "" ++ "m") ∧
      patternLookup {r.val, (r.val + 4) % 12, (r.val + 7) % 12, (r.val + 11) % 12} =
        some (note_names.getD r.val "" ++ "maj7") ∧
      patternLookup {r.val, (r.val + 4) % 12, (r.val + 7) % 12, (r.val + 10) % 12} =
        some (note_names.getD r.val "" ++ "7")) := by
  refine ⟨rfl, ?_, rfl, by decide⟩
  have h : ((chord_patterns.map Prod.fst).map (fun s => s.sum (fun x => 2 ^ x))).Nodup := by
    decide
  exact h.of_map _

end ChordExtractor
